import Mathlib

/-!
# seigtm/simd: lane semantics of the MMX / SSE / AVX demonstrations

Embedding of `mmx_sse_avx.cpp` and `sample_code.cpp`.

* Memory is a sequence of bytes (`List Nat`, every byte below 256).
* A `std::array<T, N>` / `T[N]` of unsigned integers is the list of its element values; its
  object representation is the little-endian byte string `arrayBytes`.
* A vector register (`__m64`, `xmm`, `ymm`) is the natural number whose binary digits are its
  bits; byte 0 of memory is the least significant byte (x86 is little-endian).
* `float` lanes are represented by their IEEE-754 binary32 bit patterns.
* Alignment faults are outside the model: every operand of an aligned move (`movaps`,
  `vmovaps`) is declared `alignas` of the register size in the source.
-/

namespace setm

/-! ## Registers, lanes and memory -/

/-- The `n` lowest lanes of width `w` bits of register value `x`, lane 0 first. -/
def lanes (w : Nat) : Nat → Nat → List Nat
  | 0, _ => []
  | n + 1, x => x % 2 ^ w :: lanes w n (x / 2 ^ w)

/-- The register value whose lanes of width `w` bits are `ls` (each truncated to `w` bits). -/
def ofLanes (w : Nat) : List Nat → Nat
  | [] => 0
  | l :: ls => l % 2 ^ w + 2 ^ w * ofLanes w ls

/-- Object representation of an array whose elements are unsigned integers of `k` bytes. -/
def arrayBytes (k : Nat) : List Nat → List Nat
  | [] => []
  | x :: xs => lanes 8 k x ++ arrayBytes k xs

/-- The array of `n` unsigned `k`-byte integers whose object representation starts at `m`. -/
def bytesArray (k : Nat) : Nat → List Nat → List Nat
  | 0, _ => []
  | n + 1, m => ofLanes 8 (m.take k) :: bytesArray k n (m.drop k)

/-- Read `nbytes` bytes of memory into a register (`movq`, `movaps`, `movups`, `vmovaps`,
`_mm256_loadu_si256`, or dereferencing a `const __m64*`). -/
def loadReg (nbytes : Nat) (m : List Nat) : Nat := ofLanes 8 (m.take nbytes)

/-- Write the `nbytes` bytes of a register to memory (`movq`, `movups`, `vmovups`,
`_mm256_storeu_si256`, or assigning through a `__m64*`). -/
def storeReg (nbytes : Nat) (r : Nat) : List Nat := lanes 8 nbytes r

/-- A well-formed array of `n` unsigned integers of `w` bits. -/
def IsArray (w n : Nat) (a : List Nat) : Prop := a.length = n ∧ ∀ x ∈ a, x < 2 ^ w

instance (w n : Nat) (a : List Nat) : Decidable (IsArray w n a) := by
  unfold IsArray; infer_instance

/-! ## Instructions

Operands are written in the order of the AT&T syntax used by the inline assembly of the
source: sources first, destination last.  Every function returns the new value of the
destination register.
-/

/-- Apply `f` to corresponding lanes of width `w` of two registers with `n` lanes. -/
def lanewise (w n : Nat) (f : Nat → Nat → Nat) (x y : Nat) : Nat :=
  ofLanes w (List.zipWith f (lanes w n x) (lanes w n y))

/-- Instruction `PADDUSW mm, mm/m64` (`_mm_adds_pu16`): add the four unsigned 16-bit lanes with
unsigned saturation. -/
def _mm_adds_pu16 (x y : Nat) : Nat :=
  lanewise 16 4 (fun p q => if p + q > 65535 then 65535 else p + q) x y

/-- Instruction `VPMINUB ymm, ymm, ymm/m256` (`_mm256_min_epu8`): unsigned minimum of the 32
byte lanes. -/
def _mm256_min_epu8 (x y : Nat) : Nat :=
  lanewise 8 32 (fun p q => if p < q then p else q) x y

/-- Instruction `shufps imm8, src, dest`: lanes 0 and 1 of the result are the lanes of `dest`
selected by bits 1:0 and 3:2 of `imm8`, lanes 2 and 3 are the lanes of `src` selected by bits
5:4 and 7:6. -/
def shufps (imm8 src dest : Nat) : Nat :=
  let d := lanes 32 4 dest
  let s := lanes 32 4 src
  ofLanes 32 [d.getD (imm8 % 4) 0, d.getD (imm8 / 4 % 4) 0,
              s.getD (imm8 / 16 % 4) 0, s.getD (imm8 / 64 % 4) 0]

/-- Instruction `pcmpeqd src, dest`: each 32-bit lane of `dest` becomes all ones when it equals
the lane of `src`, and zero otherwise. -/
def pcmpeqd (src dest : Nat) : Nat :=
  lanewise 32 4 (fun d s => if d = s then 0xFFFFFFFF else 0) dest src

/-- Instruction `vpsllvd src2, src1, dest`: each 32-bit lane of `src1` is shifted left by the
count in the same lane of `src2`, zeros shifted in; a count above 31 gives zero.  The former
value of `dest` is not read. -/
def vpsllvd (src2 src1 _dest : Nat) : Nat :=
  lanewise 32 8 (fun v c => if c < 32 then v * 2 ^ c % 2 ^ 32 else 0) src1 src2

/-- Instruction `pcmpeqb src, dest` on MMX registers: each byte lane of `dest` becomes `0xFF`
when it equals the byte of `src`, and zero otherwise. -/
def pcmpeqb (src dest : Nat) : Nat :=
  lanewise 8 8 (fun d s => if d = s then 0xFF else 0) dest src

/-- Instruction `pminub src, dest` on SSE registers: unsigned minimum of the 16 byte lanes. -/
def pminub (src dest : Nat) : Nat :=
  lanewise 8 16 (fun d s => if d < s then d else s) dest src

/-- Bits `2k` and `2k+1` of a shuffle selector, as a number in `0..3`. -/
def selectorField (imm8 k : Nat) : Nat := imm8 / 2 ^ (2 * k) % 4

/-- Exponent of the leading binary digit of `n` (zero for `n < 2`), for `n < 2 ^ fuel`. -/
def leadingExponent : Nat → Nat → Nat
  | 0, _ => 0
  | fuel + 1, n => if n < 2 then 0 else leadingExponent fuel (n / 2) + 1

/-- IEEE-754 binary32 bit pattern of the `float` literal whose value is the positive integer
`n`, for `n < 2^24` (such a value is exactly representable): sign 0, biased exponent
`127 + e`, and the 23 fraction bits that follow the leading digit. -/
def float_bits (n : Nat) : Nat :=
  if n = 0 then 0
  else
    let e := leadingExponent 24 n
    (127 + e) * 2 ^ 23 + (n - 2 ^ e) * 2 ^ (23 - e)

/-! ## mmx_sse_avx.cpp -/

/-- Initialiser `*reinterpret_cast<const __m64*>(a.data())` of `add_vectors`: the eight bytes
of a `std::array<std::uint16_t, 4>` read as one `__m64`. -/
def load_m64 (a : List Nat) : Nat := loadReg 8 (arrayBytes 2 a)

/-- Statement `*reinterpret_cast<__m64*>(result.data()) = v` of block 2.1: the eight bytes of
`v` written over a `std::array<std::uint16_t, 4>`, which is returned. -/
def store_m64 (v : Nat) : List Nat := bytesArray 2 4 (storeReg 8 v)

/-- Function `add_vectors`: both arrays are read as `__m64` and added with saturation. -/
def add_vectors (a b : List Nat) : Nat :=
  let xmm0 := load_m64 a
  let xmm1 := load_m64 b
  _mm_adds_pu16 xmm0 xmm1

/-- Function `compare_vectors_min`: both byte arrays are loaded unaligned into 256-bit
registers and the lane minimum is returned. -/
def compare_vectors_min (a b : List Nat) : Nat :=
  let xmm0 := loadReg 32 (arrayBytes 1 a)
  let xmm1 := loadReg 32 (arrayBytes 1 b)
  _mm256_min_epu8 xmm0 xmm1

/-- Call `_mm256_storeu_si256(reinterpret_cast<__m256i*>(result.data()), v)` of block 2.3,
returning the `std::array<std::uint8_t, 32>` written. -/
def store_m256 (v : Nat) : List Nat := bytesArray 1 32 (storeReg 32 v)

/-- Constant `bitmask` of block 1.1, `0b01'11'00'00_u32`. -/
def bitmask : Nat := 0b01110000

/-- Inline assembly of block 1.1 for arbitrary operands: returns the variables `xmm0` (the
read-write operand `%0`) and `xmm1` (read only) as they are after the statement. -/
def block_1_1 (xmm0 xmm1 : List Nat) (imm : Nat) : List Nat × List Nat :=
  let r0 := loadReg 16 (arrayBytes 4 xmm0)        -- movaps %0, %%xmm0
  let r1 := loadReg 16 (arrayBytes 4 xmm1)        -- movaps %1, %%xmm1
  let r0 := shufps imm r1 r0                      -- shufps %2, %%xmm1, %%xmm0
  (bytesArray 4 4 (storeReg 16 r0), xmm1)         -- movups %%xmm0, %0

/-- Block 1.1 of `main` with its literal arrays and its `bitmask`. -/
def main_1_1 : List Nat × List Nat :=
  block_1_1 [float_bits 11, float_bits 12, float_bits 13, float_bits 14]
    [float_bits 21, float_bits 22, float_bits 23, float_bits 24] bitmask

/-- Inline assembly of block 1.2 for arbitrary operands: returns the variables `xmm0` and
`xmm1` as they are after the statement. -/
def block_1_2 (xmm0 xmm1 : List Nat) : List Nat × List Nat :=
  let r0 := loadReg 16 (arrayBytes 4 xmm0)        -- movaps %0, %%xmm0
  let r1 := loadReg 16 (arrayBytes 4 xmm1)        -- movaps %1, %%xmm1
  let r0 := pcmpeqd r1 r0                         -- pcmpeqd %%xmm1, %%xmm0
  (bytesArray 4 4 (storeReg 16 r0), xmm1)         -- movups %%xmm0, %0

/-- Text printed for one element after block 1.2:
`(0 == element) ? "not equal" : "equal"`. -/
def verdict (element : Nat) : String := if 0 = element then "not equal" else "equal"

/-- Inline assembly of block 1.3 for arbitrary operands: returns the variable `ymm0` as it is
after the statement (`ymm1` and `ymm2` are read only). -/
def block_1_3 (ymm0 ymm1 ymm2 : List Nat) : List Nat :=
  let r0 := loadReg 32 (arrayBytes 4 ymm0)        -- vmovaps %0, %%ymm0
  let r1 := loadReg 32 (arrayBytes 4 ymm1)        -- vmovaps %1, %%ymm1
  let r2 := loadReg 32 (arrayBytes 4 ymm2)        -- vmovaps %2, %%ymm2
  let r0 := vpsllvd r1 r2 r0                      -- vpsllvd %%ymm1, %%ymm2, %%ymm0
  bytesArray 4 8 (storeReg 32 r0)                 -- vmovups %%ymm0, %0

/-- Block 1.3 of `main` with its literal arrays. -/
def main_1_3 : List Nat :=
  block_1_3 [0, 0, 0, 0, 0, 0, 0, 0] [2, 2, 2, 2, 2, 2, 2, 2] [1, 2, 3, 4, 5, 6, 7, 8]

/-- Block 2.1 of `main`: the `result` array printed as `a + b`. -/
def main_2_1 : List Nat := store_m64 (add_vectors [4, 3, 2, 1] [5, 6, 7, 8])

/-- Array `a` of block 2.3. -/
def a_2_3 : List Nat :=
  [0, 1, 2, 3, 4, 5, 6, 7, 100, 100, 100, 100, 100, 100, 100, 100,
   16, 17, 18, 19, 20, 21, 22, 23, 100, 100, 100, 100, 100, 100, 100, 100]

/-- Array `b` of block 2.3. -/
def b_2_3 : List Nat :=
  [100, 100, 100, 100, 100, 100, 100, 100, 8, 9, 10, 11, 12, 13, 14, 15,
   100, 100, 100, 100, 100, 100, 100, 100, 24, 25, 26, 27, 28, 29, 30, 31]

/-- Block 2.3 of `main`: the `result` array printed as `min(a, b)`. -/
def main_2_3 : List Nat := store_m256 (compare_vectors_min a_2_3 b_2_3)

end setm

/-! ## sample_code.cpp

`char` is a signed 8-bit integer on the x86 targets the inline assembly is written for; an
element is an `Int` in `-128..127` and its byte in memory is its value modulo 256.
-/

namespace sample_code

open setm

/-- The byte that represents a `char` in memory. -/
def charByte (c : Int) : Nat := (c % 256).toNat

/-- The `char` that a byte of memory represents. -/
def byteChar (b : Nat) : Int := if b < 128 then (b : Int) else (b : Int) - 256

/-- A well-formed `char[n]`. -/
def IsCharArray (n : Nat) (a : List Int) : Prop := a.length = n ∧ ∀ x ∈ a, -128 ≤ x ∧ x ≤ 127

instance (n : Nat) (a : List Int) : Decidable (IsCharArray n a) := by
  unfold IsCharArray; infer_instance

/-- Inline assembly of block 1 for arbitrary arrays: returns `qw1` (operand `%0`, which is
also the input operand `%1`) and `qw2` as they are after the statement. -/
def block_1 (qw1 qw2 : List Int) : List Int × List Int :=
  let mm0 := loadReg 8 (qw1.map charByte)         -- movq %1, %%mm0
  let mm1 := loadReg 8 (qw2.map charByte)         -- movq %2, %%mm1
  let mm0 := pcmpeqb mm1 mm0                      -- pcmpeqb %%mm1, %%mm0
  ((storeReg 8 mm0).map byteChar, qw2)            -- movq %%mm0, %0

/-- Block 1 of `main` with its literal arrays. -/
def main_1 : List Int × List Int :=
  block_1 [1, 0, 1, 1, 1, 1, 0, 1] [1, 2, 2, 1, 1, 2, 2, 1]

/-- Inline assembly of block 4 for arbitrary arrays: returns `a128` (operand `%0`, which is
also the input operand `%1`) as it is after the statement; `b128` is `const`. -/
def block_4 (a128 b128 : List Int) : List Int :=
  let xmm0 := loadReg 16 (a128.map charByte)      -- movups %1, %%xmm0
  let xmm1 := loadReg 16 (b128.map charByte)      -- movups %2, %%xmm1
  let xmm0 := pminub xmm1 xmm0                    -- pminub %%xmm1, %%xmm0
  (storeReg 16 xmm0).map byteChar                 -- movups %%xmm0, %0

/-- Block 4 of `main` with its literal arrays. -/
def main_4 : List Int :=
  block_4 [1, 18, 3, 19, 5, 21, 7, 23, 9, 25, 11, 27, 13, 29, 15, 31]
    [17, 2, 19, 4, 21, 6, 23, 8, 25, 10, 27, 12, 29, 14, 31, 16]

end sample_code

/-! ## Lanes, registers and bytes: general facts -/

namespace setm

theorem length_lanes (w n x : Nat) : (lanes w n x).length = n := by
  induction n generalizing x with
  | zero => rfl
  | succ n ih => simp [lanes, ih]

theorem lanes_ofLanes (w : Nat) (ls : List Nat) :
    lanes w ls.length (ofLanes w ls) = ls.map (fun l => l % 2 ^ w) := by
  induction ls with
  | nil => rfl
  | cons l ls ih =>
    have hp : 0 < 2 ^ w := Nat.two_pow_pos w
    have h1 : (l % 2 ^ w + 2 ^ w * ofLanes w ls) % 2 ^ w = l % 2 ^ w := by
      rw [Nat.add_mul_mod_self_left, Nat.mod_mod]
    have h2 : (l % 2 ^ w + 2 ^ w * ofLanes w ls) / 2 ^ w = ofLanes w ls := by
      rw [Nat.add_mul_div_left _ _ hp, Nat.div_eq_of_lt (Nat.mod_lt _ hp), Nat.zero_add]
    simp only [List.length_cons, lanes, ofLanes, List.map_cons, h1, h2, ih]

theorem ofLanes_lanes (w n x : Nat) : ofLanes w (lanes w n x) = x % 2 ^ (w * n) := by
  induction n generalizing x with
  | zero => simp [lanes, ofLanes, Nat.mod_one]
  | succ n ih =>
    simp only [lanes, ofLanes, ih, Nat.mod_mod]
    rw [Nat.mul_succ, Nat.pow_add, Nat.mul_comm (2 ^ (w * n)), Nat.mod_mul]

theorem ofLanes_append (w : Nat) (l1 l2 : List Nat) :
    ofLanes w (l1 ++ l2) = ofLanes w l1 + 2 ^ (w * l1.length) * ofLanes w l2 := by
  induction l1 with
  | nil => simp [ofLanes]
  | cons l l1 ih =>
    rw [List.cons_append]
    simp only [ofLanes, ih, List.length_cons, Nat.mul_succ, Nat.pow_add]
    ring

theorem ofLanes_arrayBytes (k : Nat) (a : List Nat) :
    ofLanes 8 (arrayBytes k a) = ofLanes (8 * k) a := by
  induction a with
  | nil => rfl
  | cons x xs ih =>
    simp only [arrayBytes, ofLanes, ofLanes_append, ofLanes_lanes, length_lanes, ih]

theorem length_arrayBytes (k : Nat) (a : List Nat) : (arrayBytes k a).length = k * a.length := by
  induction a with
  | nil => rfl
  | cons x xs ih => simp [arrayBytes, length_lanes, ih, Nat.mul_succ, Nat.add_comm]

theorem lanes_add (w m n x : Nat) :
    lanes w (m + n) x = lanes w m x ++ lanes w n (x / 2 ^ (w * m)) := by
  induction m generalizing x with
  | zero => simp [lanes]
  | succ m ih =>
    rw [Nat.succ_add]
    simp only [lanes, ih, List.cons_append, Nat.mul_succ, Nat.pow_add, Nat.div_div_eq_div_mul]
    rw [Nat.mul_comm (2 ^ w)]

theorem bytesArray_lanes (k n x : Nat) :
    bytesArray k n (lanes 8 (k * n) x) = lanes (8 * k) n x := by
  induction n generalizing x with
  | zero => rfl
  | succ n ih =>
    rw [show k * (n + 1) = k + k * n by ring, lanes_add]
    show ofLanes 8 _ :: bytesArray k n _ = _ :: lanes (8 * k) n _
    have hlen : (lanes 8 k x).length = k := length_lanes 8 k x
    rw [List.take_left' hlen, List.drop_left' hlen, ofLanes_lanes, ih]

theorem map_mod_of_lt (w : Nat) (a : List Nat) (h : ∀ x ∈ a, x < 2 ^ w) :
    a.map (fun l => l % 2 ^ w) = a := by
  induction a with
  | nil => rfl
  | cons x xs ih =>
    simp only [List.map_cons]
    rw [Nat.mod_eq_of_lt (h x (List.mem_cons_self _ _)),
      ih (fun y hy => h y (List.mem_cons_of_mem _ hy))]

/-- Loading the object representation of an array gives the register whose lanes are the
elements. -/
theorem loadReg_arrayBytes (k n : Nat) (a : List Nat) (ha : a.length = n) :
    loadReg (k * n) (arrayBytes k a) = ofLanes (8 * k) a := by
  unfold loadReg
  rw [List.take_of_length_le (by rw [length_arrayBytes, ha]), ofLanes_arrayBytes]


theorem lanes_mod (w n x : Nat) : lanes w n (x % 2 ^ (w * n)) = lanes w n x := by
  induction n generalizing x with
  | zero => rfl
  | succ n ih =>
    have h1 : x % 2 ^ (w * (n + 1)) % 2 ^ w = x % 2 ^ w :=
      Nat.mod_mod_of_dvd x ⟨2 ^ (w * n), by rw [Nat.mul_succ, Nat.pow_add, Nat.mul_comm]⟩
    have h2 : x % 2 ^ (w * (n + 1)) / 2 ^ w = x / 2 ^ w % 2 ^ (w * n) := by
      rw [Nat.mul_succ, Nat.pow_add, Nat.mul_comm (2 ^ (w * n)), Nat.mod_mul_right_div_self]
    simp only [lanes, h1, h2, ih]

theorem arrayBytes_lanes (k n x : Nat) :
    arrayBytes k (lanes (8 * k) n x) = lanes 8 (k * n) x := by
  induction n generalizing x with
  | zero => rfl
  | succ n ih =>
    rw [show k * (n + 1) = k + k * n by ring, lanes_add 8 k (k * n) x]
    show lanes 8 k (x % 2 ^ (8 * k)) ++ arrayBytes k (lanes (8 * k) n (x / 2 ^ (8 * k))) = _
    rw [lanes_mod, ih]

theorem bytesArray_storeReg (k n r : Nat) :
    bytesArray k n (storeReg (k * n) r) = lanes (8 * k) n r :=
  bytesArray_lanes k n r

theorem zipWith_lt (w : Nat) (f : Nat → Nat → Nat)
    (hf : ∀ x y, x < 2 ^ w → y < 2 ^ w → f x y < 2 ^ w) (a b : List Nat)
    (ha : ∀ x ∈ a, x < 2 ^ w) (hb : ∀ x ∈ b, x < 2 ^ w) :
    ∀ z ∈ List.zipWith f a b, z < 2 ^ w := by
  induction a generalizing b with
  | nil => simp
  | cons x xs ih =>
    cases b with
    | nil => simp
    | cons y ys =>
      intro z hz
      simp only [List.zipWith_cons_cons, List.mem_cons] at hz
      rcases hz with rfl | hz
      · exact hf x y (ha x (List.mem_cons_self _ _)) (hb y (List.mem_cons_self _ _))
      · exact ih ys (fun u hu => ha u (List.mem_cons_of_mem _ hu))
          (fun u hu => hb u (List.mem_cons_of_mem _ hu)) z hz

theorem lanes_ofLanes_of_isArray (w n : Nat) (a : List Nat) (ha : IsArray w n a) :
    lanes w n (ofLanes w a) = a := by
  have h := lanes_ofLanes w a
  rw [ha.1] at h
  rw [h, map_mod_of_lt w a ha.2]

/-- A lane-wise instruction applied to the registers that hold two arrays yields the register
that holds the element-wise results. -/
theorem lanes_lanewise (w n : Nat) (f : Nat → Nat → Nat)
    (hf : ∀ x y, x < 2 ^ w → y < 2 ^ w → f x y < 2 ^ w) (a b : List Nat)
    (ha : IsArray w n a) (hb : IsArray w n b) :
    lanes w n (lanewise w n f (ofLanes w a) (ofLanes w b)) = List.zipWith f a b := by
  unfold lanewise
  rw [lanes_ofLanes_of_isArray w n a ha, lanes_ofLanes_of_isArray w n b hb]
  apply lanes_ofLanes_of_isArray
  refine ⟨?_, zipWith_lt w f hf a b ha.2 hb.2⟩
  rw [List.length_zipWith, ha.1, hb.1, Nat.min_self]

theorem getD_zipWith {α β γ : Type} (f : α → β → γ) (a : List α) (b : List β) (i : Nat)
    (da : α) (db : β) (dc : γ) (hia : i < a.length) (hib : i < b.length) :
    (List.zipWith f a b).getD i dc = f (a.getD i da) (b.getD i db) := by
  induction a generalizing b i with
  | nil => simp at hia
  | cons x xs ih =>
    cases b with
    | nil => simp at hib
    | cons y ys =>
      cases i with
      | zero => simp
      | succ i =>
        simp only [List.length_cons, Nat.succ_lt_succ_iff] at hia hib
        simpa using ih ys i hia hib

theorem zipWith_congr_mem {α β γ : Type} (f g : α → β → γ) (a : List α) (b : List β)
    (h : ∀ x ∈ a, ∀ y ∈ b, f x y = g x y) : List.zipWith f a b = List.zipWith g a b := by
  induction a generalizing b with
  | nil => simp
  | cons x xs ih =>
    cases b with
    | nil => simp
    | cons y ys =>
      simp only [List.zipWith_cons_cons]
      rw [h x (List.mem_cons_self _ _) y (List.mem_cons_self _ _),
        ih ys (fun u hu v hv => h u (List.mem_cons_of_mem _ hu) v (List.mem_cons_of_mem _ hv))]

/-- The whole path of a lane-wise instruction on two arrays of `n` unsigned `k`-byte integers:
load both object representations, apply the instruction, store, and read the array back. -/
theorem array_lanewise (k n : Nat) (f : Nat → Nat → Nat)
    (hf : ∀ x y, x < 2 ^ (8 * k) → y < 2 ^ (8 * k) → f x y < 2 ^ (8 * k)) (a b : List Nat)
    (ha : IsArray (8 * k) n a) (hb : IsArray (8 * k) n b) :
    bytesArray k n (storeReg (k * n) (lanewise (8 * k) n f
      (loadReg (k * n) (arrayBytes k a)) (loadReg (k * n) (arrayBytes k b))))
      = List.zipWith f a b := by
  rw [bytesArray_storeReg, loadReg_arrayBytes k n a ha.1, loadReg_arrayBytes k n b hb.1,
    lanes_lanewise (8 * k) n f hf a b ha hb]

theorem getD_lt (a : List Nat) (i N : Nat) (hN : 0 < N) (ha : ∀ x ∈ a, x < N) :
    a.getD i 0 < N := by
  induction a generalizing i with
  | nil => simpa using hN
  | cons x xs ih =>
    cases i with
    | zero => simpa using ha x (List.mem_cons_self _ _)
    | succ i => simpa using ih i (fun u hu => ha u (List.mem_cons_of_mem _ hu))

theorem getD_mem {α : Type} (a : List α) (i : Nat) (d : α) (hi : i < a.length) :
    a.getD i d ∈ a := by
  induction a generalizing i with
  | nil => simp at hi
  | cons x xs ih =>
    cases i with
    | zero => simp
    | succ i =>
      simp only [List.length_cons, Nat.succ_lt_succ_iff] at hi
      simpa using Or.inr (ih i hi)

/-- The array stored by block 1.1, for any operands and selector. -/
theorem block_1_1_fst (a b : List Nat) (imm : Nat) (ha : IsArray 32 4 a)
    (hb : IsArray 32 4 b) :
    (block_1_1 a b imm).1 = [a.getD (imm % 4) 0, a.getD (imm / 4 % 4) 0,
      b.getD (imm / 16 % 4) 0, b.getD (imm / 64 % 4) 0] := by
  have h0 : (block_1_1 a b imm).1 = lanes (8 * 4) 4 (shufps imm
      (loadReg (4 * 4) (arrayBytes 4 b)) (loadReg (4 * 4) (arrayBytes 4 a))) :=
    bytesArray_storeReg 4 4 _
  rw [h0, loadReg_arrayBytes 4 4 a ha.1, loadReg_arrayBytes 4 4 b hb.1]
  unfold shufps
  simp only [lanes_ofLanes_of_isArray (8 * 4) 4 a ha, lanes_ofLanes_of_isArray (8 * 4) 4 b hb]
  apply lanes_ofLanes_of_isArray
  refine ⟨rfl, ?_⟩
  intro x hx
  simp only [List.mem_cons, List.mem_singleton, List.not_mem_nil, or_false] at hx
  rcases hx with rfl | rfl | rfl | rfl
  · exact getD_lt a _ _ (by decide) ha.2
  · exact getD_lt a _ _ (by decide) ha.2
  · exact getD_lt b _ _ (by decide) hb.2
  · exact getD_lt b _ _ (by decide) hb.2

/-- The array stored by block 1.3 for any operands: the lanes of `ymm2` shifted by the lanes
of `ymm1`. -/
theorem block_1_3_eq (ymm0 ymm1 ymm2 : List Nat) (h1 : IsArray 32 8 ymm1)
    (h2 : IsArray 32 8 ymm2) :
    block_1_3 ymm0 ymm1 ymm2
      = List.zipWith (fun v c => if c < 32 then v * 2 ^ c % 2 ^ 32 else 0) ymm2 ymm1 := by
  have hf : ∀ x y, x < 2 ^ (8 * 4) → y < 2 ^ (8 * 4) →
      (fun v c => if c < 32 then v * 2 ^ c % 2 ^ 32 else 0) x y < 2 ^ (8 * 4) := by
    intro x y _ _
    show (if y < 32 then x * 2 ^ y % 2 ^ 32 else 0) < 2 ^ 32
    split
    · exact Nat.mod_lt _ (by decide)
    · decide
  exact array_lanewise 4 8 _ hf ymm2 ymm1 h2 h1

/-! ## Claims about mmx_sse_avx.cpp -/

/-- C1: for all 4-lane uint16 arrays `a` and `b`, `add_vectors(a, b)` stored back as four
uint16 lanes has lane `i` equal to `min(a[i] + b[i], 65535)`, the sum taken in unbounded
integers; `[65530,1,1,1] + [10,1,1,1]` gives `[65535,2,2,2]` and the arrays of block 2.1 give
`[9,9,9,9]`. -/
theorem add_vectors_saturating (a b : List Nat) (ha : IsArray 16 4 a) (hb : IsArray 16 4 b) :
    store_m64 (add_vectors a b) = List.zipWith (fun x y => min (x + y) 65535) a b
    ∧ (∀ i, i < 4 →
        (store_m64 (add_vectors a b)).getD i 0 = min (a.getD i 0 + b.getD i 0) 65535)
    ∧ store_m64 (add_vectors [65530, 1, 1, 1] [10, 1, 1, 1]) = [65535, 2, 2, 2]
    ∧ main_2_1 = [9, 9, 9, 9] := by
  have h : store_m64 (add_vectors a b)
      = List.zipWith (fun x y => min (x + y) 65535) a b := by
    have hf : ∀ x y, x < 2 ^ (8 * 2) → y < 2 ^ (8 * 2) →
        (fun p q => if p + q > 65535 then 65535 else p + q) x y < 2 ^ (8 * 2) := by
      intro x y _ _
      show (if x + y > 65535 then 65535 else x + y) < 65536
      split <;> omega
    have := array_lanewise 2 4 _ hf a b ha hb
    have e : store_m64 (add_vectors a b) = List.zipWith
        (fun p q => if p + q > 65535 then 65535 else p + q) a b := this
    rw [e]
    apply zipWith_congr_mem
    intro x _ y _
    show (if x + y > 65535 then 65535 else x + y) = min (x + y) 65535
    split <;> omega
  refine ⟨h, ?_, by decide, by decide⟩
  intro i hi
  rw [h]
  exact getD_zipWith _ a b i 0 0 0 (by rw [ha.1]; exact hi) (by rw [hb.1]; exact hi)

/-- Witness of C1 at the saturating example. -/
theorem add_vectors_saturating_witness :
    IsArray 16 4 [65530, 1, 1, 1] ∧ IsArray 16 4 [10, 1, 1, 1]
    ∧ store_m64 (add_vectors [65530, 1, 1, 1] [10, 1, 1, 1])
        = List.zipWith (fun x y => min (x + y) 65535) [65530, 1, 1, 1] [10, 1, 1, 1] :=
  ⟨by decide, by decide,
    (add_vectors_saturating [65530, 1, 1, 1] [10, 1, 1, 1] (by decide) (by decide)).1⟩

/-- C7: for every 4-lane uint16 vector `v` (a `__m64`), writing `v` over the result array the
way block 2.1 does and then reading that array the way `add_vectors` reads its operands gives
back `v`, lane for lane; the eight bytes in between are those of `v` in little-endian order. -/
theorem load_store_roundtrip (v : Nat) (hv : v < 2 ^ 64) :
    load_m64 (store_m64 v) = v
    ∧ lanes 16 4 (load_m64 (store_m64 v)) = lanes 16 4 v
    ∧ arrayBytes 2 (store_m64 v) = storeReg 8 v := by
  have hs : store_m64 v = lanes 16 4 v := bytesArray_storeReg 2 4 v
  have hl : load_m64 (store_m64 v) = v := by
    rw [hs]
    have h1 : load_m64 (lanes 16 4 v) = ofLanes 16 (lanes 16 4 v) :=
      loadReg_arrayBytes 2 4 _ (length_lanes 16 4 v)
    rw [h1, ofLanes_lanes]
    exact Nat.mod_eq_of_lt hv
  refine ⟨hl, by rw [hl], ?_⟩
  rw [hs]
  exact arrayBytes_lanes 2 4 v

/-- Witness of C7 at a vector with four different lanes. -/
theorem load_store_roundtrip_witness :
    0x0004000300020001 < 2 ^ 64
    ∧ load_m64 (store_m64 0x0004000300020001) = 0x0004000300020001 :=
  ⟨by decide, (load_store_roundtrip 0x0004000300020001 (by decide)).1⟩

/-- C3: for all 4-lane float arrays `a` (variable `xmm0`) and `b` (variable `xmm1`) and
every selector, the array that block 1.1 stores back is
`[a[field 0], a[field 1], b[field 2], b[field 3]]`, where field `k` is bits `2k..2k+1` of the
selector: lanes 0 and 1 are elements of `a`, lanes 2 and 3 are elements of `b`, and `b` is
unchanged. -/
theorem shufps_selects (a b : List Nat) (imm : Nat) (ha : IsArray 32 4 a)
    (hb : IsArray 32 4 b) :
    (block_1_1 a b imm).1
        = [a.getD (selectorField imm 0) 0, a.getD (selectorField imm 1) 0,
           b.getD (selectorField imm 2) 0, b.getD (selectorField imm 3) 0]
    ∧ (∀ x ∈ ((block_1_1 a b imm).1).take 2, x ∈ a)
    ∧ (∀ x ∈ ((block_1_1 a b imm).1).drop 2, x ∈ b)
    ∧ (block_1_1 a b imm).2 = b := by
  have h := block_1_1_fst a b imm ha hb
  have hm : ∀ j, j % 4 < 4 := fun j => Nat.mod_lt _ (by decide)
  refine ⟨?_, ?_, ?_, rfl⟩
  · rw [h]
    simp [selectorField]
  · rw [h]
    intro x hx
    simp only [List.take_succ_cons, List.take_zero, List.mem_cons, List.not_mem_nil,
      or_false] at hx
    rcases hx with rfl | rfl
    · exact getD_mem a _ 0 (by rw [ha.1]; exact hm _)
    · exact getD_mem a _ 0 (by rw [ha.1]; exact hm _)
  · rw [h]
    intro x hx
    simp only [List.drop_succ_cons, List.drop_zero, List.mem_cons, List.not_mem_nil,
      or_false] at hx
    rcases hx with rfl | rfl
    · exact getD_mem b _ 0 (by rw [hb.1]; exact hm _)
    · exact getD_mem b _ 0 (by rw [hb.1]; exact hm _)

/-- Witness of C3 at the arrays of block 1.1 and the selector `0b00011011`, which reverses
the order within each half. -/
theorem shufps_selects_witness :
    IsArray 32 4 [float_bits 11, float_bits 12, float_bits 13, float_bits 14]
    ∧ IsArray 32 4 [float_bits 21, float_bits 22, float_bits 23, float_bits 24]
    ∧ (block_1_1 [float_bits 11, float_bits 12, float_bits 13, float_bits 14]
        [float_bits 21, float_bits 22, float_bits 23, float_bits 24] 0b00011011).1
      = [float_bits 14, float_bits 13, float_bits 22, float_bits 21] :=
  ⟨by decide, by decide,
    (shufps_selects [float_bits 11, float_bits 12, float_bits 13, float_bits 14]
      [float_bits 21, float_bits 22, float_bits 23, float_bits 24] 0b00011011
      (by decide) (by decide)).1⟩

/-- C4 as stated fails: the fields of the selector that block 1.1 passes are not `(0,0,0,3)`
and the array stored back is not `[11,11,21,24]`. -/
theorem shuffle_demo_not_as_stated :
    ¬ ((selectorField bitmask 0, selectorField bitmask 1, selectorField bitmask 2,
          selectorField bitmask 3) = (0, 0, 0, 3)
        ∧ main_1_1.1 = [float_bits 11, float_bits 11, float_bits 21, float_bits 24]) := by
  decide

/-- C4 amended: in block 1.1 the fields 0, 1 and 2 of the selector are `(0,0,3)`, the array
stored back has four lanes of which lanes 0, 1 and 2 are `[11,11,24]`, and lane 3 is an
element of `xmm1`. -/
theorem shuffle_demo_low_lanes :
    (selectorField bitmask 0, selectorField bitmask 1, selectorField bitmask 2) = (0, 0, 3)
    ∧ main_1_1.1.length = 4
    ∧ main_1_1.1.take 3 = [float_bits 11, float_bits 11, float_bits 24]
    ∧ main_1_1.1.getD 3 0 ∈ [float_bits 21, float_bits 22, float_bits 23, float_bits 24] := by
  decide

/-- C8: the operand comment of block 1.1 gives the selector as `0b00110000`, with which the
block would store `[11,11,24,21]`; the constant in the code is `0b01110000`, whose field 3 is
1, and the block stores `[11,11,24,22]`. -/
theorem shuffle_demo_selector_differs :
    bitmask = 0b01110000
    ∧ bitmask ≠ 0b00110000
    ∧ selectorField bitmask 3 = 1
    ∧ main_1_1.1 = [float_bits 11, float_bits 11, float_bits 24, float_bits 22]
    ∧ main_1_1.1 ≠ [float_bits 11, float_bits 11, float_bits 24, float_bits 21]
    ∧ (block_1_1 [float_bits 11, float_bits 12, float_bits 13, float_bits 14]
        [float_bits 21, float_bits 22, float_bits 23, float_bits 24] 0b00110000).1
      = [float_bits 11, float_bits 11, float_bits 24, float_bits 21] := by
  decide

/-- C2: block 1.3 with its own arrays stores `[4,8,12,16,20,24,28,32]`, the lanes of `ymm2`
shifted left by the lanes of `ymm1`, and not `[4,8,16,32,64,128,256,512]`, the lanes of
`ymm1` shifted left by the lanes of `ymm2`. -/
theorem shift_demo_operands_swapped :
    main_1_3 = [4, 8, 12, 16, 20, 24, 28, 32]
    ∧ main_1_3 ≠ [4, 8, 16, 32, 64, 128, 256, 512]
    ∧ main_1_3 = List.zipWith (fun v c => v * 2 ^ c % 2 ^ 32)
        [1, 2, 3, 4, 5, 6, 7, 8] [2, 2, 2, 2, 2, 2, 2, 2] := by
  decide

/-- C5: for all 4-lane uint32 arrays `xmm0` and `xmm1`, the array that block 1.2 stores back
has lane `i` equal to `0xFFFFFFFF` when `xmm0[i] == xmm1[i]` and to 0 otherwise, so that the
printed verdict is "equal" exactly when the two lanes were equal; `[1,2,3,4]` against
`[1,4,3,2]` gives `[0xFFFFFFFF, 0, 0xFFFFFFFF, 0]`. -/
theorem pcmpeqd_mask (a b : List Nat) (ha : IsArray 32 4 a) (hb : IsArray 32 4 b) :
    (block_1_2 a b).1 = List.zipWith (fun x y => if x = y then 0xFFFFFFFF else 0) a b
    ∧ (∀ i, i < 4 →
        ((block_1_2 a b).1.getD i 0 = if a.getD i 0 = b.getD i 0 then 0xFFFFFFFF else 0)
        ∧ (verdict ((block_1_2 a b).1.getD i 0) = "equal" ↔ a.getD i 0 = b.getD i 0))
    ∧ (block_1_2 [1, 2, 3, 4] [1, 4, 3, 2]).1 = [0xFFFFFFFF, 0, 0xFFFFFFFF, 0] := by
  have h : (block_1_2 a b).1
      = List.zipWith (fun x y => if x = y then 0xFFFFFFFF else 0) a b := by
    have hf : ∀ x y, x < 2 ^ (8 * 4) → y < 2 ^ (8 * 4) →
        (fun d s => if d = s then 0xFFFFFFFF else 0) x y < 2 ^ (8 * 4) := by
      intro x y _ _
      show (if x = y then 0xFFFFFFFF else 0) < 2 ^ 32
      split <;> decide
    exact array_lanewise 4 4 _ hf a b ha hb
  refine ⟨h, ?_, by decide⟩
  intro i hi
  have hi1 : (block_1_2 a b).1.getD i 0
      = if a.getD i 0 = b.getD i 0 then 0xFFFFFFFF else 0 := by
    rw [h]
    exact getD_zipWith _ a b i 0 0 0 (by rw [ha.1]; exact hi) (by rw [hb.1]; exact hi)
  refine ⟨hi1, ?_⟩
  rw [hi1]
  by_cases e : a.getD i 0 = b.getD i 0
  · rw [if_pos e]
    exact ⟨fun _ => e, fun _ => by decide⟩
  · rw [if_neg e]
    exact ⟨fun hv => absurd hv (by decide), fun he => absurd he e⟩

/-- Witness of C5 at the arrays of block 1.2. -/
theorem pcmpeqd_mask_witness :
    IsArray 32 4 [1, 2, 3, 4] ∧ IsArray 32 4 [1, 4, 3, 2]
    ∧ (block_1_2 [1, 2, 3, 4] [1, 4, 3, 2]).1
      = List.zipWith (fun x y => if x = y then 0xFFFFFFFF else 0) [1, 2, 3, 4] [1, 4, 3, 2] :=
  ⟨by decide, by decide, (pcmpeqd_mask [1, 2, 3, 4] [1, 4, 3, 2] (by decide) (by decide)).1⟩

/-- C6: for all 32-lane uint8 arrays `a` and `b`, `compare_vectors_min(a, b)` stored back as
32 uint8 lanes has lane `i` equal to the unsigned minimum of `a[i]` and `b[i]`; the arrays of
block 2.3 give `[0,1,2,...,31]`. -/
theorem compare_vectors_min_lanes (a b : List Nat) (ha : IsArray 8 32 a)
    (hb : IsArray 8 32 b) :
    store_m256 (compare_vectors_min a b) = List.zipWith min a b
    ∧ (∀ i, i < 32 →
        (store_m256 (compare_vectors_min a b)).getD i 0 = min (a.getD i 0) (b.getD i 0))
    ∧ main_2_3 = List.range 32 := by
  have h : store_m256 (compare_vectors_min a b) = List.zipWith min a b := by
    have hf : ∀ x y, x < 2 ^ (8 * 1) → y < 2 ^ (8 * 1) →
        (fun p q => if p < q then p else q) x y < 2 ^ (8 * 1) := by
      intro x y hx hy
      show (if x < y then x else y) < 2 ^ (8 * 1)
      split <;> assumption
    have e : store_m256 (compare_vectors_min a b)
        = List.zipWith (fun p q => if p < q then p else q) a b :=
      array_lanewise 1 32 _ hf a b ha hb
    rw [e]
    apply zipWith_congr_mem
    intro x _ y _
    show (if x < y then x else y) = min x y
    split <;> omega
  refine ⟨h, ?_, by decide⟩
  intro i hi
  rw [h]
  exact getD_zipWith _ a b i 0 0 0 (by rw [ha.1]; exact hi) (by rw [hb.1]; exact hi)

/-- Witness of C6 at the arrays of block 2.3. -/
theorem compare_vectors_min_lanes_witness :
    IsArray 8 32 a_2_3 ∧ IsArray 8 32 b_2_3
    ∧ store_m256 (compare_vectors_min a_2_3 b_2_3) = List.zipWith min a_2_3 b_2_3 :=
  ⟨by decide, by decide, (compare_vectors_min_lanes a_2_3 b_2_3 (by decide) (by decide)).1⟩

end setm

/-! ## Claims about sample_code.cpp -/

namespace sample_code

open setm

theorem charByte_lt (c : Int) : charByte c < 2 ^ 8 := by
  unfold charByte
  omega

theorem isArray_map_charByte (n : Nat) (a : List Int) (ha : IsCharArray n a) :
    IsArray 8 n (a.map charByte) := by
  refine ⟨by rw [List.length_map, ha.1], ?_⟩
  intro x hx
  obtain ⟨c, _, rfl⟩ := List.mem_map.1 hx
  exact charByte_lt c

/-- The whole path of a byte-wise instruction on two `char` arrays of `n` elements. -/
theorem char_lanewise (n : Nat) (f : Nat → Nat → Nat)
    (hf : ∀ x y, x < 2 ^ 8 → y < 2 ^ 8 → f x y < 2 ^ 8) (a b : List Int)
    (ha : IsCharArray n a) (hb : IsCharArray n b) :
    (storeReg n (lanewise 8 n f (loadReg n (a.map charByte))
      (loadReg n (b.map charByte)))).map byteChar
      = List.zipWith (fun x y => byteChar (f (charByte x) (charByte y))) a b := by
  have hA := isArray_map_charByte n a ha
  have hB := isArray_map_charByte n b hb
  unfold loadReg storeReg
  rw [List.take_of_length_le (Nat.le_of_eq hA.1), List.take_of_length_le (Nat.le_of_eq hB.1),
    lanes_lanewise 8 n f hf _ _ hA hB, List.map_zipWith, List.zipWith_map]

/-- C9: for all 8-element char arrays `qw1` and `qw2`, after block 1 each `qw1[i]` is -1 when
the original `qw1[i]` equals `qw2[i]` and 0 when they differ, and `qw2` is unchanged; the
arrays of the block give `[-1,0,0,-1,-1,0,0,-1]`. -/
theorem pcmpeqb_chars (qw1 qw2 : List Int) (h1 : IsCharArray 8 qw1)
    (h2 : IsCharArray 8 qw2) :
    (block_1 qw1 qw2).1 = List.zipWith (fun x y => if x = y then -1 else 0) qw1 qw2
    ∧ (∀ i, i < 8 →
        (block_1 qw1 qw2).1.getD i 0 = if qw1.getD i 0 = qw2.getD i 0 then -1 else 0)
    ∧ (block_1 qw1 qw2).2 = qw2
    ∧ main_1 = ([-1, 0, 0, -1, -1, 0, 0, -1], [1, 2, 2, 1, 1, 2, 2, 1]) := by
  have h : (block_1 qw1 qw2).1
      = List.zipWith (fun x y => if x = y then -1 else 0) qw1 qw2 := by
    have hf : ∀ x y, x < 2 ^ 8 → y < 2 ^ 8 →
        (fun d s => if d = s then 0xFF else 0) x y < 2 ^ 8 := by
      intro x y _ _
      show (if x = y then 0xFF else 0) < 2 ^ 8
      split <;> decide
    have e : (block_1 qw1 qw2).1 = _ := char_lanewise 8 _ hf qw1 qw2 h1 h2
    rw [e]
    apply zipWith_congr_mem
    intro x hx y hy
    have bx := h1.2 x hx
    have by1 := h2.2 y hy
    show byteChar (if charByte x = charByte y then 0xFF else 0) = if x = y then -1 else 0
    unfold charByte
    by_cases exy : x = y
    · subst exy
      simp [byteChar]
    · have hne : ¬ (x % 256).toNat = (y % 256).toNat := by omega
      rw [if_neg hne, if_neg exy]
      simp [byteChar]
  refine ⟨h, ?_, rfl, by decide⟩
  intro i hi
  rw [h]
  exact getD_zipWith _ qw1 qw2 i 0 0 0 (by rw [h1.1]; exact hi) (by rw [h2.1]; exact hi)

/-- Witness of C9 at the arrays of block 1. -/
theorem pcmpeqb_chars_witness :
    IsCharArray 8 [1, 0, 1, 1, 1, 1, 0, 1] ∧ IsCharArray 8 [1, 2, 2, 1, 1, 2, 2, 1]
    ∧ (block_1 [1, 0, 1, 1, 1, 1, 0, 1] [1, 2, 2, 1, 1, 2, 2, 1]).1
      = List.zipWith (fun x y => if x = y then -1 else 0)
          [1, 0, 1, 1, 1, 1, 0, 1] [1, 2, 2, 1, 1, 2, 2, 1] :=
  ⟨by decide, by decide,
    (pcmpeqb_chars [1, 0, 1, 1, 1, 1, 0, 1] [1, 2, 2, 1, 1, 2, 2, 1]
      (by decide) (by decide)).1⟩

/-- C10: for all 16-element char arrays `a128` and `b128` whose elements all lie in `0..127`,
after block 4 each `a128[i]` is the minimum of the original `a128[i]` and `b128[i]` as signed
chars; the arrays of the block give `[1,2,...,16]`.  The range matters: the bytes are compared
as unsigned, so for -1 against 1 the block stores 1. -/
theorem pminub_chars (a128 b128 : List Int) (ha : a128.length = 16) (hb : b128.length = 16)
    (ra : ∀ x ∈ a128, 0 ≤ x ∧ x ≤ 127) (rb : ∀ x ∈ b128, 0 ≤ x ∧ x ≤ 127) :
    block_4 a128 b128 = List.zipWith min a128 b128
    ∧ (∀ i, i < 16 → (block_4 a128 b128).getD i 0 = min (a128.getD i 0) (b128.getD i 0))
    ∧ main_4 = [1, 2, 3, 4, 5, 6, 7, 8, 9, 10, 11, 12, 13, 14, 15, 16]
    ∧ (block_4 [-1, 0, 0, 0, 0, 0, 0, 0, 0, 0, 0, 0, 0, 0, 0, 0]
        [1, 0, 0, 0, 0, 0, 0, 0, 0, 0, 0, 0, 0, 0, 0, 0]).getD 0 0 = 1 := by
  have h : block_4 a128 b128 = List.zipWith min a128 b128 := by
    have hf : ∀ x y, x < 2 ^ 8 → y < 2 ^ 8 →
        (fun d s => if d < s then d else s) x y < 2 ^ 8 := by
      intro x y hx hy
      show (if x < y then x else y) < 2 ^ 8
      split <;> assumption
    have hA : IsCharArray 16 a128 := ⟨ha, fun x hx => ⟨by have := ra x hx; omega, (ra x hx).2⟩⟩
    have hB : IsCharArray 16 b128 := ⟨hb, fun x hx => ⟨by have := rb x hx; omega, (rb x hx).2⟩⟩
    have e : block_4 a128 b128 = _ := char_lanewise 16 _ hf a128 b128 hA hB
    rw [e]
    apply zipWith_congr_mem
    intro x hx y hy
    have bx := ra x hx
    have by1 := rb y hy
    show byteChar (if charByte x < charByte y then charByte x else charByte y) = min x y
    have cx : charByte x = x.toNat := by unfold charByte; omega
    have cy : charByte y = y.toNat := by unfold charByte; omega
    rw [cx, cy]
    unfold byteChar
    split <;> split <;> omega
  refine ⟨h, ?_, by decide, by decide⟩
  intro i hi
  rw [h]
  exact getD_zipWith _ a128 b128 i 0 0 0 (by rw [ha]; exact hi) (by rw [hb]; exact hi)

/-- Witness of C10 at the arrays of block 4. -/
theorem pminub_chars_witness :
    block_4 [1, 18, 3, 19, 5, 21, 7, 23, 9, 25, 11, 27, 13, 29, 15, 31]
        [17, 2, 19, 4, 21, 6, 23, 8, 25, 10, 27, 12, 29, 14, 31, 16]
      = List.zipWith min [1, 18, 3, 19, 5, 21, 7, 23, 9, 25, 11, 27, 13, 29, 15, 31]
          [17, 2, 19, 4, 21, 6, 23, 8, 25, 10, 27, 12, 29, 14, 31, 16] :=
  (pminub_chars [1, 18, 3, 19, 5, 21, 7, 23, 9, 25, 11, 27, 13, 29, 15, 31]
    [17, 2, 19, 4, 21, 6, 23, 8, 25, 10, 27, 12, 29, 14, 31, 16]
    (by decide) (by decide) (by decide) (by decide)).1

end sample_code
